import Mathlib

/-!
Shallow embedding of the in-process document search engine of
src/backend/main.go (tokenize, normalizeWord, levenshteinDistance,
SearchEngine.BuildIndex / indexField / Search / findMatches /
findFuzzyMatches / calculateIDF / getFieldWeight / getDocumentByID),
together with theorems checking the specification claims C1 to C10
against it.

Modelling conventions: Go strings are sequences of characters
(List Char, ASCII in all concrete inputs), float64 arithmetic is ideal
real arithmetic, a Go map is an association list in key-insertion order,
and the randomized iteration order of the docScores map in Search is an
explicit order parameter constrained to enumerate exactly the map keys.
Go code that can panic (slice expression with negative bound) returns
Option, with none for the panic.
-/

namespace ChatappSearch

abbrev Word := List Char

/-- Stop words dropped by tokenize in main.go. -/
def stopWords : List Word :=
  ["the", "a", "an", "and", "or", "but", "in", "on", "at", "to", "for", "of",
   "with", "by", "is", "are", "was", "were", "be", "been", "have", "has",
   "had", "do", "does", "did", "will", "would", "could", "should"].map String.data

/-- Character class kept by the Go regexp (letters and digits); ASCII model. -/
def isTokenChar (c : Char) : Bool := c.isAlphanum

/-- Splitting a text into maximal runs of token characters: the effect of
replacing every non-alphanumeric run by a separator and then splitting on
separators, as tokenize does. -/
def splitWordsAux : List Char → List Char → List Word
  | [], acc => if acc.isEmpty then [] else [acc.reverse]
  | c :: cs, acc =>
    if isTokenChar c then splitWordsAux cs (c :: acc)
    else if acc.isEmpty then splitWordsAux cs []
    else acc.reverse :: splitWordsAux cs []

def splitWords (cs : List Char) : List Word := splitWordsAux cs []

/-- tokenize from main.go: remove punctuation runs, lowercase, split on
whitespace, then keep only non-stop-words of length > 1. -/
def tokenize (text : String) : List Word :=
  ((splitWords text.data).map (fun w => w.map Char.toLower)).filter
    (fun w => !stopWords.contains w && w.length > 1)

/-- Ordered suffix list used by normalizeWord in main.go. -/
def suffixList : List Word :=
  ["ing", "ed", "er", "est", "ly", "ion", "tion", "sion", "ness", "ment"].map String.data

/-- Loop body of normalizeWord: try the suffixes in order; strip the first
one that matches with len(word) > len(suffix)+2 and stop; when the length
test fails the loop continues with the remaining suffixes. -/
def stripLoop : List Word → Word → Word
  | [], w => w
  | s :: rest, w =>
    if s <:+ w ∧ w.length > s.length + 2 then w.take (w.length - s.length)
    else stripLoop rest w

/-- normalizeWord from main.go: lowercase, then one pass of suffix stripping. -/
def normalizeWord (w : Word) : Word := stripLoop suffixList (w.map Char.toLower)

/-- Three-argument min helper from main.go. -/
def min3 (a b c : Nat) : Nat := if a < b ∧ a < c then a else if b < c then b else c

/-- Inner loop of levenshteinDistance: computes columns 1..m of matrix row i
from row i-1 (walked alongside the characters of s2) and the value cur of
the current row one column to the left. -/
def levRow (a : Char) : List Char → List Nat → Nat → List Nat
  | b :: bs, p0 :: p1 :: ps, cur =>
    min3 (p1 + 1) (cur + 1) (p0 + if a = b then 0 else 1) ::
      levRow a bs (p1 :: ps) (min3 (p1 + 1) (cur + 1) (p0 + if a = b then 0 else 1))
  | _, _, _ => []

/-- Outer loop of levenshteinDistance: one row per character of s1;
matrix[i][0] = i. -/
def levLoop (s2 : List Char) : List Char → List Nat → Nat → List Nat
  | [], row, _ => row
  | a :: as, row, i => levLoop s2 as ((i + 1) :: levRow a s2 row (i + 1)) (i + 1)

/-- levenshteinDistance from main.go: classic dynamic-programming matrix,
with the early returns for empty arguments; matrix[0][j] = j. -/
def levenshteinDistance (s1 s2 : List Char) : Nat :=
  if s1 = [] then s2.length
  else if s2 = [] then s1.length
  else (levLoop s2 s1 (List.range (s2.length + 1)) 0).getD s2.length 0

example : levenshteinDistance "caf".data "cat".data = 1 := by decide
example : levenshteinDistance "kitten".data "sitting".data = 3 := by decide
example : levenshteinDistance "passwrd".data "password".data = 1 := by decide
example : tokenize "use strong password" = ["use".data, "strong".data, "password".data] := by decide
example : tokenize "The Password, policy!" = ["password".data, "policy".data] := by decide
example : normalizeWord "fried".data = "fri".data := by decide
example : normalizeWord "nation".data = "nat".data := by decide
example : normalizeWord "password".data = "password".data := by decide

/-- PolicyFile from main.go, restricted to the fields the search engine
reads (id, the five indexed text fields, and the active flag); the other
Go fields (file path, audit metadata, timestamps) never reach the engine. -/
structure PolicyFile where
  id : Nat
  name : String
  description : String
  category : String
  tagsArray : List String
  content : String
  isActive : Bool
deriving DecidableEq

/-- DocumentIndex from main.go: one posting of the inverted index. -/
structure DocumentIndex where
  documentId : Nat
  field : String
  frequency : Nat
  positions : List Nat
deriving DecidableEq

/-- The Go map word -> []DocumentIndex, modelled as an association list in
key-insertion order. -/
abbrev Index := List (Word × List DocumentIndex)

/-- SearchEngine from main.go. -/
structure SearchEngine where
  documents : List PolicyFile
  index : Index
deriving DecidableEq

/-- Reading se.Index[word]: a missing key yields the empty posting list. -/
def indexLookup : Index → Word → List DocumentIndex
  | [], _ => []
  | (k, v) :: t, w => if k = w then v else indexLookup t w

/-- The posting-list update inside indexField: the posting for the pair
(docID, field) has its frequency bumped and the position appended, or a
fresh posting is created at the end of the list. -/
def addPosting : List DocumentIndex → Nat → String → Nat → List DocumentIndex
  | [], docID, field, pos => [⟨docID, field, 1, [pos]⟩]
  | p :: t, docID, field, pos =>
    if p.documentId = docID ∧ p.field = field then
      ⟨p.documentId, p.field, p.frequency + 1, p.positions ++ [pos]⟩ :: t
    else p :: addPosting t docID field pos

/-- Writing through se.Index[word]: update the posting list at the key,
creating the key (at the end, i.e. in insertion order) when absent. -/
def indexInsert : Index → Word → Nat → String → Nat → Index
  | [], w, docID, field, pos => [(w, addPosting [] docID field pos)]
  | (k, v) :: t, w, docID, field, pos =>
    if k = w then (k, addPosting v docID field pos) :: t
    else (k, v) :: indexInsert t w docID field pos

set_option linter.unusedVariables false in
/-- indexField from main.go: tokenize the field text and insert one posting
update per token position, skipping words shorter than 2 characters and
normalizing each word. The weight argument is accepted and ignored exactly
as in the source. -/
def indexField (idx : Index) (docID : Nat) (field : String) (text : String)
    (weight : ℝ) : Index :=
  (tokenize text).enum.foldl
    (fun acc pw =>
      if pw.2.length < 2 then acc
      else indexInsert acc (normalizeWord pw.2) docID field pw.1)
    idx

/-- BuildIndex from main.go: clear the index, then index the five fields of
every active document in order. -/
def BuildIndex (se : SearchEngine) : SearchEngine :=
  { se with
    index :=
      se.documents.foldl
        (fun idx doc =>
          if doc.isActive then
            indexField
              (indexField
                (indexField
                  (indexField (indexField idx doc.id "name" doc.name 3.0)
                    doc.id "description" doc.description 2.0)
                  doc.id "content" doc.content 1.0)
                doc.id "category" doc.category 2.5)
              doc.id "tags" (String.intercalate " " doc.tagsArray) 2.0
          else idx)
        [] }

/-- findMatches from main.go. -/
def findMatches (se : SearchEngine) (w : Word) : List DocumentIndex :=
  indexLookup se.index w

/-- findFuzzyMatches from main.go: collect the full posting lists of all
vocabulary terms within the distance bound, in index order. -/
def findFuzzyMatches (se : SearchEngine) (w : Word) (maxDistance : Nat) :
    List DocumentIndex :=
  se.index.foldl
    (fun acc kv =>
      if levenshteinDistance w kv.1 ≤ maxDistance then acc ++ kv.2 else acc)
    []

/-- calculateIDF from main.go: the document count is len(se.Documents) (all
snapshot documents, active or not) and the term count is the length of the
posting list (one entry per document-field pair). -/
noncomputable def calculateIDF (se : SearchEngine) (w : Word) : ℝ :=
  if (indexLookup se.index w).length = 0 then 0
  else Real.log ((se.documents.length : ℝ) / ((indexLookup se.index w).length : ℝ))

/-- getFieldWeight from main.go. -/
def getFieldWeight (field : String) : ℝ :=
  if field = "name" then 3.0
  else if field = "description" then 2.0
  else if field = "category" then 2.5
  else if field = "tags" then 2.0
  else if field = "content" then 1.0
  else 1.0

/-- getDocumentByID from main.go: first document with the id, if any. -/
def getDocumentByID (se : SearchEngine) (id : Nat) : Option PolicyFile :=
  se.documents.find? (fun doc => doc.id = id)

/-- Match from main.go. -/
structure Match where
  field : String
  text : Word
  score : ℝ

/-- DocumentMatch from main.go. -/
structure DocumentMatch where
  document : PolicyFile
  score : ℝ
  Matches : List Match

/-- The sequence of (docID, Match) accumulation steps performed by the main
loop of Search, in program order: for each query word, normalize it, take
the exact postings or (when there are none) the fuzzy postings, and score
each posting as frequency * idf(queryWord) * fieldWeight. -/
noncomputable def scoredMatches (se : SearchEngine) (query : String) :
    List (Nat × Match) :=
  (tokenize query).flatMap
    (fun qw0 =>
      ((if (findMatches se (normalizeWord qw0)).isEmpty then
          findFuzzyMatches se (normalizeWord qw0) 2
        else findMatches se (normalizeWord qw0)).map
        (fun m =>
          (m.documentId,
            ⟨m.field, normalizeWord qw0,
              (m.frequency : ℝ) * calculateIDF se (normalizeWord qw0) *
                getFieldWeight m.field⟩))))

/-- docScores[docID] += score, on the association-list model of the map. -/
def bumpScore : List (Nat × ℝ) → Nat → ℝ → List (Nat × ℝ)
  | [], d, s => [(d, s)]
  | (k, v) :: t, d, s =>
    if k = d then (k, v + s) :: t else (k, v) :: bumpScore t d s

/-- docMatches[docID] = append(docMatches[docID], m). -/
def bumpMatches : List (Nat × List Match) → Nat → Match → List (Nat × List Match)
  | [], d, m => [(d, [m])]
  | (k, v) :: t, d, m =>
    if k = d then (k, v ++ [m]) :: t else (k, v) :: bumpMatches t d m

/-- The docScores map of Search after the accumulation loop. -/
noncomputable def docScores (se : SearchEngine) (query : String) : List (Nat × ℝ) :=
  (scoredMatches se query).foldl (fun acc p => bumpScore acc p.1 p.2.score) []

/-- The docMatches map of Search after the accumulation loop. -/
noncomputable def docMatchesMap (se : SearchEngine) (query : String) :
    List (Nat × List Match) :=
  (scoredMatches se query).foldl (fun acc p => bumpMatches acc p.1 p.2) []

/-- Reading docScores[d] (0 when absent, as for a Go map). -/
def scoreLookup : List (Nat × ℝ) → Nat → ℝ
  | [], _ => 0
  | (k, v) :: t, d => if k = d then v else scoreLookup t d

/-- Reading docMatches[d] (empty when absent). -/
def matchesLookup : List (Nat × List Match) → Nat → List Match
  | [], _ => []
  | (k, v) :: t, d => if k = d then v else matchesLookup t d

/-- The result-building loop of Search: iterate the docScores keys in the
(randomized) map order given by the order parameter, skipping ids whose
document is not found. -/
noncomputable def assembleResults (se : SearchEngine) (query : String)
    (order : List Nat) : List DocumentMatch :=
  order.filterMap
    (fun d =>
      (getDocumentByID se d).map
        (fun doc =>
          ⟨doc, scoreLookup (docScores se query) d,
            matchesLookup (docMatchesMap se query) d⟩))

/-- Insertion step of the model of sort.Slice with less(i, j) =
score(i) > score(j): an element moves left past strictly smaller scores
only, so equal scores keep their input order. -/
noncomputable def insertDesc (r : DocumentMatch) :
    List DocumentMatch → List DocumentMatch
  | [] => [r]
  | x :: xs => if x.score > r.score then x :: insertDesc r xs else r :: x :: xs

/-- Model of the sort.Slice call in Search: a sort by descending score that
is stable with respect to the input order (together with the free order
parameter this covers every outcome the unstable Go sort can produce). -/
noncomputable def sortByScore : List DocumentMatch → List DocumentMatch
  | [] => []
  | x :: xs => insertDesc x (sortByScore xs)

/-- Search from main.go. A limit of exactly 0 is replaced by 10; an empty
token list returns early; otherwise the results are assembled in map order,
sorted, and truncated. The Go slice expression results[:limit] panics when
limit is negative (len(results) > limit always holds then), modelled as
none. -/
noncomputable def Search (se : SearchEngine) (query : String) (limit : Int)
    (order : List Nat) : Option (List DocumentMatch) :=
  let lim := if limit = 0 then 10 else limit
  if tokenize query = [] then some []
  else
    let results := sortByScore (assembleResults se query order)
    if (results.length : Int) > lim then
      if lim < 0 then none else some (results.take lim.toNat)
    else some results

/-- A list of document ids is a possible iteration order of the docScores
map: no duplicates and exactly the keys of the map. -/
noncomputable def isValidOrder (se : SearchEngine) (query : String)
    (order : List Nat) : Bool :=
  decide order.Nodup &&
    ((docScores se query).map Prod.fst).all (fun k => decide (k ∈ order)) &&
    order.all (fun k => decide (k ∈ (docScores se query).map Prod.fst))

/-- Document A of the spec scenario (section 8 of the spec). -/
def docA : PolicyFile := ⟨1, "Password Policy", "", "", [], "use strong password", true⟩

/-- Document B of the spec scenario. -/
def docB : PolicyFile := ⟨2, "VPN Guide", "", "", [], "connect vpn password reset", true⟩

/-- Document C of the spec scenario. -/
def docC : PolicyFile := ⟨3, "Incident Response", "", "", [], "report incident", true⟩

/-- The scenario engine: the three-document corpus, indexed. -/
def scenarioEngine : SearchEngine := BuildIndex ⟨[docA, docB, docC], []⟩

example :
    indexLookup scenarioEngine.index "password".data =
      [⟨1, "name", 1, [0]⟩, ⟨1, "content", 1, [2]⟩, ⟨2, "content", 1, [2]⟩] := by
  decide

example : isValidOrder scenarioEngine "password" [2, 1] = true := by decide
example : isValidOrder scenarioEngine "password" [1, 2] = true := by decide
example : isValidOrder scenarioEngine "password" [1] = false := by decide
example : isValidOrder scenarioEngine "xyz123" [] = true := by decide
example : Search (⟨[], []⟩ : SearchEngine) "password" (-1) [] = none := by rfl
example : Search (⟨[], []⟩ : SearchEngine) "zz" 10 [] = some [] := by rfl
example : Search scenarioEngine "" 10 [] = some [] := by rfl

/-- Recursive specification of the edit distance, consuming both strings at
the head, with the same min3 grouping as the matrix recurrence of
levenshteinDistance (the matrix cell (i, j) will be this function applied
to the reversed length-i and length-j left slices). -/
def levH : List Char → List Char → Nat
  | [], y => y.length
  | x, [] => x.length
  | a :: x, b :: y =>
    min3 (levH x (b :: y) + 1) (levH (a :: x) y + 1)
      (levH x y + if a = b then 0 else 1)
termination_by x y => (x.length, y.length)

lemma min3_eq (a b c : Nat) : min3 a b c = min a (min b c) := by
  simp only [min3]; split_ifs <;> omega

lemma levH_nil_left (y : List Char) : levH [] y = y.length := by
  cases y <;> simp [levH]

lemma levH_nil_right (x : List Char) : levH x [] = x.length := by
  cases x <;> simp [levH]

lemma levH_cons_cons (a : Char) (x : List Char) (b : Char) (y : List Char) :
    levH (a :: x) (b :: y) =
      min3 (levH x (b :: y) + 1) (levH (a :: x) y + 1)
        (levH x y + if a = b then 0 else 1) := by
  simp [levH]

lemma ite_eq_self_char (a : Char) : ((if a = a then 0 else 1) : Nat) = 0 := by simp

lemma levH_self (x : List Char) : levH x x = 0 := by
  induction x with
  | nil => simp [levH_nil_left]
  | cons a x ih =>
    rw [levH_cons_cons, min3_eq, ite_eq_self_char, ih]
    omega

lemma levH_comm_fuel :
    ∀ n (x y : List Char), x.length + y.length ≤ n → levH x y = levH y x := by
  intro n
  induction n with
  | zero =>
    intro x y h
    have hx : x = [] := List.eq_nil_of_length_eq_zero (by omega)
    have hy : y = [] := List.eq_nil_of_length_eq_zero (by omega)
    subst hx; subst hy; rfl
  | succ n ih =>
    intro x y h
    match x, y with
    | [], y => rw [levH_nil_left, levH_nil_right]
    | a :: x, [] => rw [levH_nil_left, levH_nil_right]
    | a :: x, b :: y =>
      rw [levH_cons_cons, levH_cons_cons]
      simp only [List.length_cons] at h
      rw [ih x (b :: y) (by simp; omega), ih (a :: x) y (by simp; omega),
        ih x y (by omega)]
      have hab : ((if a = b then 0 else 1) : Nat) = if b = a then 0 else 1 := by
        by_cases hh : a = b
        · rw [if_pos hh, if_pos hh.symm]
        · rw [if_neg hh, if_neg (fun hba => hh hba.symm)]
      rw [hab, min3_eq, min3_eq]
      omega

lemma levH_comm (x y : List Char) : levH x y = levH y x :=
  levH_comm_fuel (x.length + y.length) x y le_rfl

lemma levH_eq_zero_fuel :
    ∀ n (x y : List Char), x.length + y.length ≤ n → levH x y = 0 → x = y := by
  intro n
  induction n with
  | zero =>
    intro x y h
    have hx : x = [] := List.eq_nil_of_length_eq_zero (by omega)
    have hy : y = [] := List.eq_nil_of_length_eq_zero (by omega)
    subst hx; subst hy; intro; rfl
  | succ n ih =>
    intro x y h
    match x, y with
    | [], y => rw [levH_nil_left]; intro hy; exact (List.length_eq_zero.mp hy).symm
    | a :: x, [] => rw [levH_nil_right]; intro hx; simp at hx
    | a :: x, b :: y =>
      rw [levH_cons_cons, min3_eq]
      simp only [List.length_cons] at h
      intro h0
      by_cases hab : a = b
      · rw [if_pos hab] at h0
        have hxy : levH x y = 0 := by omega
        rw [hab, ih x y (by omega) hxy]
      · rw [if_neg hab] at h0
        omega

lemma levH_eq_zero {x y : List Char} (h : levH x y = 0) : x = y :=
  levH_eq_zero_fuel (x.length + y.length) x y le_rfl h

lemma levH_ins_le (c : Char) : ∀ u v : List Char, levH (u ++ v) (u ++ c :: v) ≤ 1 := by
  intro u
  induction u with
  | nil =>
    intro v
    match v with
    | [] => simp [levH_nil_left]
    | a :: v =>
      simp only [List.nil_append]
      rw [levH_cons_cons, min3_eq]
      have h2 := levH_self (a :: v)
      omega
  | cons a u ih =>
    intro v
    simp only [List.cons_append]
    rw [levH_cons_cons, min3_eq, ite_eq_self_char]
    have h3 := ih v
    omega

lemma levH_subst_le (a b : Char) :
    ∀ u v : List Char, levH (u ++ a :: v) (u ++ b :: v) ≤ 1 := by
  intro u
  induction u with
  | nil =>
    intro v
    simp only [List.nil_append]
    rw [levH_cons_cons, min3_eq]
    have h2 := levH_self v
    have hc : ((if a = b then 0 else 1) : Nat) ≤ 1 := by split <;> omega
    omega
  | cons x u ih =>
    intro v
    simp only [List.cons_append]
    rw [levH_cons_cons, min3_eq, ite_eq_self_char]
    have h3 := ih v
    omega

/-- Values of matrix row i at columns greater than a reversed prefix Y of
s2: the entry for each further column is levH of X and the reversed prefix
extended by the next characters of bs. -/
def specRest (X : List Char) : List Char → List Char → List Nat
  | _, [] => []
  | Y, b :: bs => levH X (b :: Y) :: specRest X (b :: Y) bs

lemma levRow_spec (a : Char) (X : List Char) :
    ∀ (bs Y : List Char),
      levRow a bs (levH X Y :: specRest X Y bs) (levH (a :: X) Y) =
        specRest (a :: X) Y bs := by
  intro bs
  induction bs with
  | nil => intro Y; simp [levRow, specRest]
  | cons b bs ih =>
    intro Y
    show levRow a (b :: bs)
        (levH X Y :: specRest X Y (b :: bs)) (levH (a :: X) Y) = _
    rw [show specRest X Y (b :: bs) = levH X (b :: Y) :: specRest X (b :: Y) bs from rfl,
      show specRest (a :: X) Y (b :: bs) =
        levH (a :: X) (b :: Y) :: specRest (a :: X) (b :: Y) bs from rfl]
    simp only [levRow]
    rw [← levH_cons_cons, ih (b :: Y)]

lemma levLoop_spec (s2 : List Char) :
    ∀ (xs X : List Char),
      levLoop s2 xs (levH X [] :: specRest X [] s2) X.length =
        levH (xs.reverse ++ X) [] :: specRest (xs.reverse ++ X) [] s2 := by
  intro xs
  induction xs with
  | nil => intro X; simp [levLoop]
  | cons a as ih =>
    intro X
    show levLoop s2 as
        ((X.length + 1) :: levRow a s2 (levH X [] :: specRest X [] s2) (X.length + 1))
        (X.length + 1) = _
    have hlen : X.length + 1 = levH (a :: X) [] := by
      rw [levH_nil_right]; simp
    rw [hlen, levRow_spec a X s2 [],
      show levH (a :: X) [] :: specRest (a :: X) [] s2 =
        levH (a :: X) [] :: specRest (a :: X) [] s2 from rfl]
    have := ih (a :: X)
    rw [show (a :: X).length = levH (a :: X) [] from by rw [levH_nil_right]] at this
    rw [this]
    simp [List.append_assoc]

lemma specRest_nil_left :
    ∀ (bs Y : List Char), levH [] Y :: specRest [] Y bs =
      List.range' Y.length (bs.length + 1) := by
  intro bs
  induction bs with
  | nil => intro Y; simp [specRest, levH_nil_left, List.range']
  | cons b bs ih =>
    intro Y
    simp only [List.length_cons]
    rw [show specRest [] Y (b :: bs) = levH [] (b :: Y) :: specRest [] (b :: Y) bs from rfl]
    rw [show List.range' Y.length (bs.length + 1 + 1) =
      Y.length :: List.range' (Y.length + 1) (bs.length + 1) from rfl]
    rw [levH_nil_left]
    have := ih (b :: Y)
    simp only [List.length_cons] at this
    rw [this]

lemma specRest_getD :
    ∀ (bs Y X : List Char),
      (levH X Y :: specRest X Y bs).getD bs.length 0 = levH X (bs.reverse ++ Y) := by
  intro bs
  induction bs with
  | nil => intro Y X; simp [specRest]
  | cons b bs ih =>
    intro Y X
    rw [show specRest X Y (b :: bs) = levH X (b :: Y) :: specRest X (b :: Y) bs from rfl]
    show (levH X (b :: Y) :: specRest X (b :: Y) bs).getD bs.length 0 = _
    rw [ih (b :: Y) X]
    simp

/-- The dynamic-programming implementation computes the recursive edit
distance of the reversed strings (the matrix recurrence consumes the
strings from the back). -/
theorem levenshteinDistance_eq_levH (s1 s2 : List Char) :
    levenshteinDistance s1 s2 = levH s1.reverse s2.reverse := by
  unfold levenshteinDistance
  by_cases h1 : s1 = []
  · subst h1; simp [levH_nil_left]
  · rw [if_neg h1]
    by_cases h2 : s2 = []
    · subst h2; simp [levH_nil_right]
    · rw [if_neg h2]
      have h0 : List.range (s2.length + 1) = levH [] [] :: specRest [] [] s2 := by
        rw [specRest_nil_left s2 []]
        simp [List.range_eq_range']
      rw [h0]
      have hloop := levLoop_spec s2 s1 []
      rw [show (([] : List Char)).length = 0 from rfl] at hloop
      rw [hloop]
      rw [show s1.reverse ++ ([] : List Char) = s1.reverse from by simp]
      rw [specRest_getD s2 [] s1.reverse]
      simp

lemma lev_comm (a b : List Char) :
    levenshteinDistance a b = levenshteinDistance b a := by
  rw [levenshteinDistance_eq_levH, levenshteinDistance_eq_levH, levH_comm]

lemma lev_self (a : List Char) : levenshteinDistance a a = 0 := by
  rw [levenshteinDistance_eq_levH, levH_self]

lemma lev_pos_of_ne {a b : List Char} (h : a ≠ b) :
    1 ≤ levenshteinDistance a b := by
  rw [levenshteinDistance_eq_levH]
  by_contra hlt
  push_neg at hlt
  have h0 : levH a.reverse b.reverse = 0 := by omega
  exact h (List.reverse_injective (levH_eq_zero h0))

lemma lev_insert (u v : List Char) (c : Char) :
    levenshteinDistance (u ++ v) (u ++ c :: v) = 1 := by
  have hle : levenshteinDistance (u ++ v) (u ++ c :: v) ≤ 1 := by
    rw [levenshteinDistance_eq_levH]
    have := levH_ins_le c v.reverse u.reverse
    simpa [List.reverse_append, List.reverse_cons, List.append_assoc] using this
  have hne : (u ++ v) ≠ (u ++ c :: v) := by
    intro h
    have := congrArg List.length h
    simp at this
  have := lev_pos_of_ne hne
  omega

lemma lev_delete (u v : List Char) (c : Char) :
    levenshteinDistance (u ++ c :: v) (u ++ v) = 1 := by
  rw [lev_comm]; exact lev_insert u v c

lemma lev_substitute (u v : List Char) (a b : Char) (hab : a ≠ b) :
    levenshteinDistance (u ++ a :: v) (u ++ b :: v) = 1 := by
  have hle : levenshteinDistance (u ++ a :: v) (u ++ b :: v) ≤ 1 := by
    rw [levenshteinDistance_eq_levH]
    have := levH_subst_le a b v.reverse u.reverse
    simpa [List.reverse_append, List.reverse_cons, List.append_assoc] using this
  have hne : (u ++ a :: v) ≠ (u ++ b :: v) := by
    intro h
    have h2 := List.append_cancel_left h
    simp at h2
    exact hab h2
  have := lev_pos_of_ne hne
  omega

/-- C8: the Levenshtein distance function of main.go is symmetric
(distance(a, b) = distance(b, a)), reflexive (distance(a, a) = 0), and a
single-character edit yields a string at distance exactly 1: inserting a
character c between u and v, deleting the character c of u ++ c :: v, or
substituting a character a of u ++ a :: v by a different character b (a
substitution by the same character would leave the string unchanged). -/
theorem claimC8_levenshtein_properties :
    (∀ a b : List Char, levenshteinDistance a b = levenshteinDistance b a) ∧
    (∀ a : List Char, levenshteinDistance a a = 0) ∧
    (∀ (u v : List Char) (c : Char),
      levenshteinDistance (u ++ v) (u ++ c :: v) = 1) ∧
    (∀ (u v : List Char) (c : Char),
      levenshteinDistance (u ++ c :: v) (u ++ v) = 1) ∧
    (∀ (u v : List Char) (a b : Char), a ≠ b →
      levenshteinDistance (u ++ a :: v) (u ++ b :: v) = 1) :=
  ⟨lev_comm, lev_self, lev_insert, lev_delete, lev_substitute⟩

/-- Witness for C8 at concrete strings: substituting the middle character
of "pat" by a different character gives distance exactly 1. -/
theorem claimC8_witness :
    ('a' ≠ 'o') ∧ levenshteinDistance (['p'] ++ 'a' :: ['t']) (['p'] ++ 'o' :: ['t']) = 1 :=
  ⟨by decide, claimC8_levenshtein_properties.2.2.2.2 ['p'] ['t'] 'a' 'o' (by decide)⟩

/-- C9: BuildIndex depends only on the document snapshot — engines with
identical documents produce identical postings no matter what index they
started from — and rebuilding on an already-built engine changes nothing. -/
theorem claimC9_build_idempotent (se se2 : SearchEngine)
    (h : se.documents = se2.documents) :
    BuildIndex se = BuildIndex se2 ∧ BuildIndex (BuildIndex se) = BuildIndex se := by
  obtain ⟨docs, idx⟩ := se
  obtain ⟨docs2, idx2⟩ := se2
  simp only at h
  subst h
  exact ⟨rfl, rfl⟩

/-- Witness for C9: two engines with the same single-document snapshot but
different pre-existing index contents build the same engine. -/
theorem claimC9_witness :
    (⟨[docA], []⟩ : SearchEngine).documents =
      (⟨[docA], [("stale".data, [⟨7, "name", 1, [0]⟩])]⟩ : SearchEngine).documents ∧
    BuildIndex ⟨[docA], []⟩ =
      BuildIndex ⟨[docA], [("stale".data, [⟨7, "name", 1, [0]⟩])]⟩ :=
  ⟨rfl, (claimC9_build_idempotent _ _ rfl).1⟩

/-- Inverse document frequency as claim C1 states it: N is the number of
active documents of the snapshot and n the number of distinct documents
containing the term, with idf = 0 when n = 0. -/
noncomputable def idfClaim (se : SearchEngine) (w : Word) : ℝ :=
  if ((indexLookup se.index w).map (fun p => p.documentId)).dedup.length = 0 then 0
  else
    Real.log (((se.documents.filter (fun d => d.isActive)).length : ℝ) /
      (((indexLookup se.index w).map (fun p => p.documentId)).dedup.length : ℝ))

/-- Corpus refuting C1: one active document whose name and content both
contain the term, so the code counts 2 postings for 1 containing document. -/
def idfEngine : SearchEngine := BuildIndex ⟨[⟨1, "cat", "", "", [], "cat", true⟩], []⟩

/-- Counterexample to C1: calculateIDF divides by the posting-list length
(document-field pairs), not by the number of documents containing the term,
so on idfEngine the code returns ln(1/2) where the claim demands
ln(1/1) = 0. -/
theorem claimC1_counterexample :
    calculateIDF idfEngine "cat".data ≠ idfClaim idfEngine "cat".data := by
  have hlook : (indexLookup idfEngine.index "cat".data).length = 2 := by decide
  have hdocs : idfEngine.documents.length = 1 := by decide
  have hded : ((indexLookup idfEngine.index "cat".data).map
      (fun p => p.documentId)).dedup.length = 1 := by decide
  have hact : ((idfEngine.documents.filter (fun d => d.isActive)).length) = 1 := by decide
  have h1 : calculateIDF idfEngine "cat".data = Real.log ((1 : ℝ) / 2) := by
    unfold calculateIDF
    rw [hlook, hdocs]
    norm_num
  have h2 : idfClaim idfEngine "cat".data = 0 := by
    unfold idfClaim
    rw [hded, hact]
    norm_num
  rw [h1, h2]
  have hneg : Real.log ((1 : ℝ) / 2) < 0 := Real.log_neg (by norm_num) (by norm_num)
  exact ne_of_lt hneg

/-- C1 amended: the idf used by Search is ln(N / n) where N is the total
number of snapshot documents (active and inactive alike) and n is the
length of the posting list of the term (one entry per document-field pair,
so a term occurring in several fields of one document is counted once per
field); idf is 0 when the term has no postings, and with an empty snapshot
idf is 0 for every term. -/
theorem claimC1_amended (se : SearchEngine) (w : Word) :
    (calculateIDF se w =
      if (indexLookup se.index w).length = 0 then 0
      else Real.log ((se.documents.length : ℝ) /
        ((indexLookup se.index w).length : ℝ))) ∧
    (se.documents = [] → calculateIDF se w = 0) := by
  refine ⟨rfl, fun h => ?_⟩
  unfold calculateIDF
  rw [h]
  by_cases hn : (indexLookup se.index w).length = 0
  · rw [if_pos hn]
  · rw [if_neg hn]
    norm_num [Real.log_zero]

/-- Witness for C1 amended at an engine with an empty snapshot but a stale
nonempty index: idf still evaluates to 0. -/
theorem claimC1_witness :
    ((⟨[], [("cat".data, [⟨1, "content", 1, [0]⟩])]⟩ : SearchEngine).documents =
      ([] : List PolicyFile)) ∧
    calculateIDF ⟨[], [("cat".data, [⟨1, "content", 1, [0]⟩])]⟩ "cat".data = 0 :=
  ⟨rfl, (claimC1_amended _ _).2 rfl⟩

lemma search_limit10_len (se : SearchEngine) (query : String) (order : List Nat)
    (l : List DocumentMatch) (hl : Search se query 10 order = some l) :
    l.length ≤ 10 := by
  simp only [Search] at hl
  rw [ite_self] at hl
  split at hl
  · obtain rfl : [] = l := Option.some.inj hl
    simp
  · split at hl
    · rw [if_neg (by norm_num)] at hl
      obtain rfl := Option.some.inj hl
      simp only [List.length_take]
      omega
    · obtain rfl := Option.some.inj hl
      rename_i hlen
      omega

/-- C5 amended: only a limit of exactly 0 is replaced by the default 10
(with at most 10 results returned then); a strictly negative limit is not
defaulted and makes Search fail with a slice-bounds panic (modelled as
none) whenever the query tokenizes to at least one term. -/
theorem claimC5_amended (se : SearchEngine) (query : String) (order : List Nat) :
    (Search se query 0 order = Search se query 10 order) ∧
    (∀ l, Search se query 0 order = some l → l.length ≤ 10) ∧
    (∀ limit : Int, limit < 0 → tokenize query ≠ [] →
      Search se query limit order = none) := by
  refine ⟨rfl, fun l hl => search_limit10_len se query order l hl, fun limit hneg hq => ?_⟩
  have h1 : (if limit = (0 : Int) then (10 : Int) else limit) = limit :=
    if_neg (by omega)
  simp only [Search, h1, if_neg hq]
  rw [if_pos (by
    have := Int.ofNat_nonneg (sortByScore (assembleResults se query order)).length
    omega), if_pos hneg]

/-- Counterexample to C5: Search with limit -1 does not behave like the
default 10 — it fails (slice panic, modelled as none) even on an engine
where limit 10 returns an empty result list. -/
theorem claimC5_counterexample :
    Search (⟨[], []⟩ : SearchEngine) "password" (-1) [] = none ∧
    Search (⟨[], []⟩ : SearchEngine) "password" 10 [] = some [] :=
  ⟨rfl, rfl⟩

/-- Witness for C5 amended: the negative-limit clause applied at the
scenario corpus. -/
theorem claimC5_witness :
    ((-1 : Int) < 0) ∧ tokenize "password" ≠ [] ∧
    Search scenarioEngine "password" (-1) [1, 2] = none :=
  ⟨by decide, by decide,
    (claimC5_amended scenarioEngine "password" [1, 2]).2.2 (-1) (by decide) (by decide)⟩

lemma stripLoop_cons_pos {s v : Word} (rest : List Word) (h : s <:+ v)
    (hl : v.length > s.length + 2) :
    stripLoop (s :: rest) v = v.take (v.length - s.length) := by
  rw [stripLoop]; exact if_pos ⟨h, hl⟩

lemma stripLoop_cons_neg {s v : Word} (rest : List Word) (h : ¬ s <:+ v) :
    stripLoop (s :: rest) v = stripLoop rest v := by
  rw [stripLoop]; exact if_neg (fun hh => h hh.1)

lemma stripLoop_cons_len {s v : Word} (rest : List Word)
    (hl : ¬ v.length > s.length + 2) :
    stripLoop (s :: rest) v = stripLoop rest v := by
  rw [stripLoop]; exact if_neg (fun hh => hl hh.2)

lemma stripLoop_all_neg :
    ∀ (L : List Word) (v : Word),
      (∀ s ∈ L, ¬(s <:+ v ∧ v.length > s.length + 2)) → stripLoop L v = v := by
  intro L
  induction L with
  | nil => intro v _; rfl
  | cons s rest ih =>
    intro v h
    rw [stripLoop, if_neg (h s (by simp))]
    exact ih v (fun t ht => h t (by simp [ht]))

lemma suffix_incomp {s t v : Word} (hsv : s <:+ v) (htv : t <:+ v)
    (hst : ¬ s <:+ t) (hts : ¬ t <:+ s) : False :=
  (List.suffix_or_suffix_of_suffix hsv htv).elim hst hts

/-- First suffix of the fixed list that the word ends with, if any. -/
def firstSuffixHit (v : Word) : Option Word :=
  if "ing".data <:+ v then some "ing".data
  else if "ed".data <:+ v then some "ed".data
  else if "er".data <:+ v then some "er".data
  else if "est".data <:+ v then some "est".data
  else if "ly".data <:+ v then some "ly".data
  else if "ion".data <:+ v then some "ion".data
  else if "tion".data <:+ v then some "tion".data
  else if "sion".data <:+ v then some "sion".data
  else if "ness".data <:+ v then some "ness".data
  else if "ment".data <:+ v then some "ment".data
  else none

/-- Normalization as claim C6 words it: the first suffix in list order that
the word ends with is removed if and only if the resulting stem is at least
2 characters longer than that suffix; otherwise the word is unchanged. -/
def normalizeWordClaim (w : Word) : Word :=
  match firstSuffixHit (w.map Char.toLower) with
  | some s =>
    if (w.map Char.toLower).length - s.length ≥ s.length + 2 then
      (w.map Char.toLower).take ((w.map Char.toLower).length - s.length)
    else w.map Char.toLower
  | none => w.map Char.toLower

/-- Normalization with the amended threshold: the first suffix in list
order that the word ends with is removed if and only if the word is more
than 2 characters longer than the suffix (the stem keeps at least 3
characters); otherwise the word is unchanged. -/
def normalizeWordAmended (w : Word) : Word :=
  match firstSuffixHit (w.map Char.toLower) with
  | some s =>
    if (w.map Char.toLower).length > s.length + 2 then
      (w.map Char.toLower).take ((w.map Char.toLower).length - s.length)
    else w.map Char.toLower
  | none => w.map Char.toLower

/-- Counterexample to C6: for the word fried the first matching suffix is
ed with stem fri, and 3 is not at least 2 + 2, so the claim demands the
word be left unchanged; the code strips it to fri (the actual threshold is
a stem of at least 3 characters, not suffix length + 2). -/
theorem claimC6_counterexample :
    normalizeWord "fried".data ≠ normalizeWordClaim "fried".data ∧
    normalizeWord "fried".data = "fri".data ∧
    normalizeWordClaim "fried".data = "fried".data := by decide

/-- C6 amended: normalization strips at most one suffix in a single pass;
the first suffix in the fixed order that the word ends with is removed if
and only if the word is more than 2 characters longer than that suffix
(the stem keeps at least 3 characters); otherwise the word is unchanged.
The loop in the source keeps testing later suffixes after a failed length
check, but for this fixed list a later suffix that also matches is always
longer and fails its length check too, so the first-match description is
exact. -/
theorem claimC6_amended (w : Word) : normalizeWord w = normalizeWordAmended w := by
  unfold normalizeWord normalizeWordAmended
  generalize w.map Char.toLower = v
  have hsl : suffixList =
      ["ing".data, "ed".data, "er".data, "est".data, "ly".data, "ion".data,
       "tion".data, "sion".data, "ness".data, "ment".data] := rfl
  rw [hsl]
  by_cases h1 : "ing".data <:+ v
  · have hfs : firstSuffixHit v = some "ing".data := by
      unfold firstSuffixHit; rw [if_pos h1]
    rw [hfs]
    show _ = if v.length > ("ing".data).length + 2 then
      v.take (v.length - ("ing".data).length) else v
    by_cases hl : v.length > ("ing".data).length + 2
    · rw [stripLoop_cons_pos _ h1 hl, if_pos hl]
    · rw [stripLoop_cons_len _ hl, if_neg hl]
      apply stripLoop_all_neg
      intro s hs
      simp only [List.mem_cons, List.not_mem_nil, or_false] at hs
      rintro ⟨hsv, hlen⟩
      rcases hs with rfl | rfl | rfl | rfl | rfl | rfl | rfl | rfl | rfl <;>
        exact suffix_incomp h1 hsv (by decide) (by decide)
  · rw [stripLoop_cons_neg _ h1]
    by_cases h2 : "ed".data <:+ v
    · have hfs : firstSuffixHit v = some "ed".data := by
        unfold firstSuffixHit; rw [if_neg h1, if_pos h2]
      rw [hfs]
      show _ = if v.length > ("ed".data).length + 2 then
        v.take (v.length - ("ed".data).length) else v
      by_cases hl : v.length > ("ed".data).length + 2
      · rw [stripLoop_cons_pos _ h2 hl, if_pos hl]
      · rw [stripLoop_cons_len _ hl, if_neg hl]
        apply stripLoop_all_neg
        intro s hs
        simp only [List.mem_cons, List.not_mem_nil, or_false] at hs
        rintro ⟨hsv, hlen⟩
        rcases hs with rfl | rfl | rfl | rfl | rfl | rfl | rfl | rfl <;>
          exact suffix_incomp h2 hsv (by decide) (by decide)
    · rw [stripLoop_cons_neg _ h2]
      by_cases h3 : "er".data <:+ v
      · have hfs : firstSuffixHit v = some "er".data := by
          unfold firstSuffixHit; rw [if_neg h1, if_neg h2, if_pos h3]
        rw [hfs]
        show _ = if v.length > ("er".data).length + 2 then
          v.take (v.length - ("er".data).length) else v
        by_cases hl : v.length > ("er".data).length + 2
        · rw [stripLoop_cons_pos _ h3 hl, if_pos hl]
        · rw [stripLoop_cons_len _ hl, if_neg hl]
          apply stripLoop_all_neg
          intro s hs
          simp only [List.mem_cons, List.not_mem_nil, or_false] at hs
          rintro ⟨hsv, hlen⟩
          rcases hs with rfl | rfl | rfl | rfl | rfl | rfl | rfl <;>
            exact suffix_incomp h3 hsv (by decide) (by decide)
      · rw [stripLoop_cons_neg _ h3]
        by_cases h4 : "est".data <:+ v
        · have hfs : firstSuffixHit v = some "est".data := by
            unfold firstSuffixHit; rw [if_neg h1, if_neg h2, if_neg h3, if_pos h4]
          rw [hfs]
          show _ = if v.length > ("est".data).length + 2 then
            v.take (v.length - ("est".data).length) else v
          by_cases hl : v.length > ("est".data).length + 2
          · rw [stripLoop_cons_pos _ h4 hl, if_pos hl]
          · rw [stripLoop_cons_len _ hl, if_neg hl]
            apply stripLoop_all_neg
            intro s hs
            simp only [List.mem_cons, List.not_mem_nil, or_false] at hs
            rintro ⟨hsv, hlen⟩
            rcases hs with rfl | rfl | rfl | rfl | rfl | rfl <;>
              exact suffix_incomp h4 hsv (by decide) (by decide)
        · rw [stripLoop_cons_neg _ h4]
          by_cases h5 : "ly".data <:+ v
          · have hfs : firstSuffixHit v = some "ly".data := by
              unfold firstSuffixHit
              rw [if_neg h1, if_neg h2, if_neg h3, if_neg h4, if_pos h5]
            rw [hfs]
            show _ = if v.length > ("ly".data).length + 2 then
              v.take (v.length - ("ly".data).length) else v
            by_cases hl : v.length > ("ly".data).length + 2
            · rw [stripLoop_cons_pos _ h5 hl, if_pos hl]
            · rw [stripLoop_cons_len _ hl, if_neg hl]
              apply stripLoop_all_neg
              intro s hs
              simp only [List.mem_cons, List.not_mem_nil, or_false] at hs
              rintro ⟨hsv, hlen⟩
              rcases hs with rfl | rfl | rfl | rfl | rfl <;>
                exact suffix_incomp h5 hsv (by decide) (by decide)
          · rw [stripLoop_cons_neg _ h5]
            by_cases h6 : "ion".data <:+ v
            · have hfs : firstSuffixHit v = some "ion".data := by
                unfold firstSuffixHit
                rw [if_neg h1, if_neg h2, if_neg h3, if_neg h4, if_neg h5, if_pos h6]
              rw [hfs]
              show _ = if v.length > ("ion".data).length + 2 then
                v.take (v.length - ("ion".data).length) else v
              by_cases hl : v.length > ("ion".data).length + 2
              · rw [stripLoop_cons_pos _ h6 hl, if_pos hl]
              · rw [stripLoop_cons_len _ hl, if_neg hl]
                apply stripLoop_all_neg
                intro s hs
                simp only [List.mem_cons, List.not_mem_nil, or_false] at hs
                rintro ⟨hsv, hlen⟩
                have hlion : ("ion".data : Word).length = 3 := rfl
                rcases hs with rfl | rfl | rfl | rfl
                · have hl4 : ("tion".data : Word).length = 4 := rfl
                  rw [hl4] at hlen
                  rw [hlion] at hl
                  omega
                · have hl4 : ("sion".data : Word).length = 4 := rfl
                  rw [hl4] at hlen
                  rw [hlion] at hl
                  omega
                · exact suffix_incomp h6 hsv (by decide) (by decide)
                · exact suffix_incomp h6 hsv (by decide) (by decide)
            · rw [stripLoop_cons_neg _ h6]
              have h7 : ¬ "tion".data <:+ v := fun hh =>
                h6 (List.IsSuffix.trans (by decide) hh)
              rw [stripLoop_cons_neg _ h7]
              have h8 : ¬ "sion".data <:+ v := fun hh =>
                h6 (List.IsSuffix.trans (by decide) hh)
              rw [stripLoop_cons_neg _ h8]
              by_cases h9 : "ness".data <:+ v
              · have hfs : firstSuffixHit v = some "ness".data := by
                  unfold firstSuffixHit
                  rw [if_neg h1, if_neg h2, if_neg h3, if_neg h4, if_neg h5,
                    if_neg h6, if_neg h7, if_neg h8, if_pos h9]
                rw [hfs]
                show _ = if v.length > ("ness".data).length + 2 then
                  v.take (v.length - ("ness".data).length) else v
                by_cases hl : v.length > ("ness".data).length + 2
                · rw [stripLoop_cons_pos _ h9 hl, if_pos hl]
                · rw [stripLoop_cons_len _ hl, if_neg hl]
                  apply stripLoop_all_neg
                  intro s hs
                  simp only [List.mem_cons, List.not_mem_nil, or_false] at hs
                  rintro ⟨hsv, hlen⟩
                  rcases hs with rfl
                  exact suffix_incomp h9 hsv (by decide) (by decide)
              · rw [stripLoop_cons_neg _ h9]
                by_cases h10 : "ment".data <:+ v
                · have hfs : firstSuffixHit v = some "ment".data := by
                    unfold firstSuffixHit
                    rw [if_neg h1, if_neg h2, if_neg h3, if_neg h4, if_neg h5,
                      if_neg h6, if_neg h7, if_neg h8, if_neg h9, if_pos h10]
                  rw [hfs]
                  show _ = if v.length > ("ment".data).length + 2 then
                    v.take (v.length - ("ment".data).length) else v
                  by_cases hl : v.length > ("ment".data).length + 2
                  · rw [stripLoop_cons_pos _ h10 hl, if_pos hl]
                  · rw [stripLoop_cons_len _ hl, if_neg hl]
                    rfl
                · rw [stripLoop_cons_neg _ h10]
                  have hfs : firstSuffixHit v = none := by
                    unfold firstSuffixHit
                    rw [if_neg h1, if_neg h2, if_neg h3, if_neg h4, if_neg h5,
                      if_neg h6, if_neg h7, if_neg h8, if_neg h9, if_neg h10]
                  rw [hfs]
                  rfl

lemma scoreLookup_bumpScore :
    ∀ (acc : List (Nat × ℝ)) (k : Nat) (s : ℝ) (d : Nat),
      scoreLookup (bumpScore acc k s) d =
        scoreLookup acc d + if k = d then s else 0 := by
  intro acc
  induction acc with
  | nil =>
    intro k s d
    simp only [bumpScore, scoreLookup]
    split <;> simp
  | cons a t ih =>
    intro k s d
    obtain ⟨ak, av⟩ := a
    simp only [bumpScore]
    by_cases hak : ak = k
    · rw [if_pos hak]
      simp only [scoreLookup]
      by_cases had : ak = d
      · rw [if_pos had, if_pos had, if_pos (hak.symm.trans had)]
      · rw [if_neg had, if_neg had,
          if_neg (fun h => had (hak.trans h)), add_zero]
    · rw [if_neg hak]
      simp only [scoreLookup]
      by_cases had : ak = d
      · rw [if_pos had, if_pos had,
          if_neg (fun h => hak (had.trans h.symm)), add_zero]
      · rw [if_neg had, if_neg had, ih]

lemma matchesLookup_bumpMatches :
    ∀ (acc : List (Nat × List Match)) (k : Nat) (m : Match) (d : Nat),
      matchesLookup (bumpMatches acc k m) d =
        matchesLookup acc d ++ if k = d then [m] else [] := by
  intro acc
  induction acc with
  | nil =>
    intro k m d
    simp only [bumpMatches, matchesLookup]
    split <;> simp
  | cons a t ih =>
    intro k m d
    obtain ⟨ak, av⟩ := a
    simp only [bumpMatches]
    by_cases hak : ak = k
    · rw [if_pos hak]
      simp only [matchesLookup]
      by_cases had : ak = d
      · rw [if_pos had, if_pos had, if_pos (hak.symm.trans had)]
      · rw [if_neg had, if_neg had,
          if_neg (fun h => had (hak.trans h)), List.append_nil]
    · rw [if_neg hak]
      simp only [matchesLookup]
      by_cases had : ak = d
      · rw [if_pos had, if_pos had,
          if_neg (fun h => hak (had.trans h.symm)), List.append_nil]
      · rw [if_neg had, if_neg had, ih]

lemma scoreLookup_fold :
    ∀ (L : List (Nat × Match)) (acc : List (Nat × ℝ)) (d : Nat),
      scoreLookup (L.foldl (fun a p => bumpScore a p.1 p.2.score) acc) d =
        scoreLookup acc d +
          ((L.filter (fun p => p.1 = d)).map (fun p => p.2.score)).sum := by
  intro L
  induction L with
  | nil => intro acc d; simp
  | cons p t ih =>
    intro acc d
    rw [List.foldl_cons, ih, scoreLookup_bumpScore]
    by_cases hpd : p.1 = d
    · rw [if_pos hpd]
      rw [List.filter_cons_of_pos (by simp [hpd])]
      simp only [List.map_cons, List.sum_cons]
      ring
    · rw [if_neg hpd]
      rw [List.filter_cons_of_neg (by simp [hpd])]
      ring

lemma matchesLookup_fold :
    ∀ (L : List (Nat × Match)) (acc : List (Nat × List Match)) (d : Nat),
      matchesLookup (L.foldl (fun a p => bumpMatches a p.1 p.2) acc) d =
        matchesLookup acc d ++ (L.filter (fun p => p.1 = d)).map (fun p => p.2) := by
  intro L
  induction L with
  | nil => intro acc d; simp
  | cons p t ih =>
    intro acc d
    rw [List.foldl_cons, ih, matchesLookup_bumpMatches]
    by_cases hpd : p.1 = d
    · rw [if_pos hpd]
      rw [List.filter_cons_of_pos (by simp [hpd])]
      simp
    · rw [if_neg hpd]
      rw [List.filter_cons_of_neg (by simp [hpd])]
      simp

lemma scoreLookup_docScores (se : SearchEngine) (q : String) (d : Nat) :
    scoreLookup (docScores se q) d =
      (((scoredMatches se q).filter (fun p => p.1 = d)).map
        (fun p => p.2.score)).sum := by
  unfold docScores
  rw [scoreLookup_fold]
  simp [scoreLookup]

lemma matchesLookup_docMatchesMap (se : SearchEngine) (q : String) (d : Nat) :
    matchesLookup (docMatchesMap se q) d =
      ((scoredMatches se q).filter (fun p => p.1 = d)).map (fun p => p.2) := by
  unfold docMatchesMap
  rw [matchesLookup_fold]
  simp [matchesLookup]

lemma keys_bumpScore :
    ∀ (acc : List (Nat × ℝ)) (k : Nat) (s : ℝ) (d : Nat),
      d ∈ (bumpScore acc k s).map Prod.fst ↔ d ∈ acc.map Prod.fst ∨ d = k := by
  intro acc
  induction acc with
  | nil => intro k s d; simp [bumpScore, eq_comm]
  | cons a t ih =>
    intro k s d
    obtain ⟨ak, av⟩ := a
    simp only [bumpScore]
    by_cases hak : ak = k
    · rw [if_pos hak]
      subst hak
      simp only [List.map_cons, List.mem_cons]
      constructor
      · rintro (h | h)
        · exact Or.inl (Or.inl h)
        · exact Or.inl (Or.inr h)
      · rintro ((h | h) | h)
        · exact Or.inl h
        · exact Or.inr h
        · exact Or.inl h
    · rw [if_neg hak]
      simp only [List.map_cons, List.mem_cons, ih]
      tauto

lemma keys_docScores_fold :
    ∀ (L : List (Nat × Match)) (acc : List (Nat × ℝ)) (d : Nat),
      d ∈ ((L.foldl (fun a p => bumpScore a p.1 p.2.score) acc).map Prod.fst) ↔
        d ∈ acc.map Prod.fst ∨ d ∈ L.map Prod.fst := by
  intro L
  induction L with
  | nil => intro acc d; simp
  | cons p t ih =>
    intro acc d
    rw [List.foldl_cons, ih, keys_bumpScore]
    simp only [List.map_cons, List.mem_cons]
    tauto

lemma keys_docScores (se : SearchEngine) (q : String) (d : Nat) :
    d ∈ (docScores se q).map Prod.fst ↔ d ∈ (scoredMatches se q).map Prod.fst := by
  unfold docScores
  rw [keys_docScores_fold]
  simp

lemma isValidOrder_spec {se : SearchEngine} {q : String} {o : List Nat}
    (h : isValidOrder se q o = true) :
    o.Nodup ∧ (∀ k ∈ (docScores se q).map Prod.fst, k ∈ o) ∧
      (∀ k ∈ o, k ∈ (docScores se q).map Prod.fst) := by
  unfold isValidOrder at h
  simp only [Bool.and_eq_true, decide_eq_true_eq, List.all_eq_true] at h
  exact ⟨h.1.1, h.1.2, h.2⟩

lemma insertDesc_perm (r : DocumentMatch) (l : List DocumentMatch) :
    List.Perm (insertDesc r l) (r :: l) := by
  induction l with
  | nil => exact List.Perm.refl _
  | cons x xs ih =>
    simp only [insertDesc]
    split
    · exact ((ih.cons x).trans (List.Perm.swap r x xs))
    · exact List.Perm.refl _

lemma sortByScore_perm (l : List DocumentMatch) : List.Perm (sortByScore l) l := by
  induction l with
  | nil => exact List.Perm.refl _
  | cons x xs ih => exact (insertDesc_perm x (sortByScore xs)).trans (ih.cons x)

lemma insertDesc_pairwise (r : DocumentMatch) (l : List DocumentMatch)
    (h : l.Pairwise (fun a b => b.score ≤ a.score)) :
    (insertDesc r l).Pairwise (fun a b => b.score ≤ a.score) := by
  induction l with
  | nil =>
    show List.Pairwise _ [r]
    simp
  | cons x xs ih =>
    rw [List.pairwise_cons] at h
    simp only [insertDesc]
    split
    · rename_i hc
      rw [List.pairwise_cons]
      refine ⟨fun y hy => ?_, ih h.2⟩
      rcases List.mem_cons.mp ((insertDesc_perm r xs).mem_iff.mp hy) with h1 | h1
      · subst h1; exact le_of_lt hc
      · exact h.1 y h1
    · rename_i hc
      push_neg at hc
      rw [List.pairwise_cons]
      refine ⟨fun y hy => ?_, List.pairwise_cons.mpr h⟩
      rcases List.mem_cons.mp hy with h1 | h1
      · subst h1; exact hc
      · exact le_trans (h.1 y h1) hc

lemma sortByScore_pairwise (l : List DocumentMatch) :
    (sortByScore l).Pairwise (fun a b => b.score ≤ a.score) := by
  induction l with
  | nil => exact List.Pairwise.nil
  | cons x xs ih => exact insertDesc_pairwise x (sortByScore xs) ih

lemma mem_assembleResults {se : SearchEngine} {q : String} {order : List Nat}
    {dm : DocumentMatch} (h : dm ∈ assembleResults se q order) :
    ∃ d ∈ order, getDocumentByID se d = some dm.document ∧
      dm.score = scoreLookup (docScores se q) d ∧
      dm.Matches = matchesLookup (docMatchesMap se q) d := by
  unfold assembleResults at h
  obtain ⟨d, hd, hmap⟩ := List.mem_filterMap.mp h
  obtain ⟨doc, hdoc, heq⟩ := Option.map_eq_some'.mp hmap
  exact ⟨d, hd, by rw [hdoc, ← heq], by rw [← heq], by rw [← heq]⟩

lemma getDocumentByID_id {se : SearchEngine} {d : Nat} {doc : PolicyFile}
    (h : getDocumentByID se d = some doc) : doc.id = d := by
  unfold getDocumentByID at h
  have := List.find?_some h
  simpa using this

lemma map_id_assembleResults (se : SearchEngine) (q : String) :
    ∀ order : List Nat,
      (assembleResults se q order).map (fun dm => dm.document.id) =
        order.filter (fun d => (getDocumentByID se d).isSome) := by
  intro order
  induction order with
  | nil => rfl
  | cons d t ih =>
    unfold assembleResults at ih ⊢
    cases hget : getDocumentByID se d with
    | none =>
      simp only [List.filterMap_cons, hget, Option.map_none']
      rw [List.filter_cons_of_neg (by simp [hget])]
      exact ih
    | some doc =>
      simp only [List.filterMap_cons, hget, Option.map_some', List.map_cons]
      rw [List.filter_cons_of_pos (by simp [hget]), ih, getDocumentByID_id hget]

lemma search_some_sublist {se : SearchEngine} {query : String} {limit : Int}
    {order : List Nat} {l : List DocumentMatch}
    (h : Search se query limit order = some l) :
    List.Sublist l (sortByScore (assembleResults se query order)) := by
  by_cases hq : tokenize query = []
  · have heq : Search se query limit order = some [] := by
      simp only [Search, if_pos hq]
    rw [heq] at h
    obtain rfl : [] = l := Option.some.inj h
    exact List.nil_sublist _
  · by_cases hgt : ((sortByScore (assembleResults se query order)).length : Int) >
        (if limit = 0 then 10 else limit)
    · by_cases hneg : (if limit = 0 then (10 : Int) else limit) < 0
      · exfalso
        have heq : Search se query limit order = none := by
          simp only [Search, if_neg hq, if_pos hgt, if_pos hneg]
        rw [heq] at h
        cases h
      · have heq : Search se query limit order =
            some ((sortByScore (assembleResults se query order)).take
              (if limit = 0 then (10 : Int) else limit).toNat) := by
          simp only [Search, if_neg hq, if_pos hgt, if_neg hneg]
        rw [heq] at h
        obtain rfl := Option.some.inj h
        exact List.take_sublist _ _
    · have heq : Search se query limit order =
          some (sortByScore (assembleResults se query order)) := by
        simp only [Search, if_neg hq, if_neg hgt]
      rw [heq] at h
      obtain rfl := Option.some.inj h
      exact List.Sublist.refl _

/-- C4 amended: every successful Search call returns a list sorted by
non-increasing total score; the relative order of equal-score results
follows the docScores map iteration order (the order parameter), which Go
randomizes — it is not the ascending-document-id order, and repeated
identical calls need not agree on it (see the counterexample). -/
theorem claimC4_amended (se : SearchEngine) (query : String) (limit : Int)
    (order : List Nat) (l : List DocumentMatch)
    (h : Search se query limit order = some l) :
    l.Pairwise (fun a b => b.score ≤ a.score) :=
  List.Pairwise.sublist (search_some_sublist h) (sortByScore_pairwise _)

/-- Witness for C4 amended: a concrete run (query with no index matches)
returns an empty, trivially sorted list. -/
theorem claimC4_witness :
    Search (⟨[], []⟩ : SearchEngine) "zz" 10 [] = some [] ∧
    List.Pairwise (fun a b : DocumentMatch => b.score ≤ a.score) [] :=
  ⟨rfl, claimC4_amended ⟨[], []⟩ "zz" 10 [] [] rfl⟩

lemma nodup_ids_sorted (se : SearchEngine) (q : String) (order : List Nat)
    (hnd : order.Nodup) :
    ((sortByScore (assembleResults se q order)).map
      (fun dm => dm.document.id)).Nodup := by
  have hperm := (sortByScore_perm (assembleResults se q order)).map
    (fun dm => dm.document.id)
  rw [hperm.nodup_iff, map_id_assembleResults]
  exact hnd.filter _

/-- C10: for every realizable docScores iteration order, each
DocumentMatch returned by Search carries a total Score equal to the sum of
the Score fields of its Matches entries, and no document id occurs in two
returned DocumentMatch values. -/
theorem claimC10_results_consistent (se : SearchEngine) (query : String)
    (limit : Int) (order : List Nat) (l : List DocumentMatch)
    (hord : isValidOrder se query order = true)
    (h : Search se query limit order = some l) :
    (∀ dm ∈ l, dm.score = (dm.Matches.map (fun m => m.score)).sum) ∧
    (l.map (fun dm => dm.document.id)).Nodup := by
  obtain ⟨hnd, -, -⟩ := isValidOrder_spec hord
  have hsub := search_some_sublist h
  constructor
  · intro dm hdm
    have hmem : dm ∈ assembleResults se query order :=
      (sortByScore_perm _).mem_iff.mp (hsub.subset hdm)
    obtain ⟨d, hd, hdoc, hscore, hmatches⟩ := mem_assembleResults hmem
    rw [hscore, hmatches, scoreLookup_docScores, matchesLookup_docMatchesMap,
      List.map_map]
    rfl
  · exact List.Nodup.sublist (hsub.map _) (nodup_ids_sorted se query order hnd)

/-- Witness for C10: a concrete valid run with an empty key set. -/
theorem claimC10_witness :
    isValidOrder (⟨[], []⟩ : SearchEngine) "zz" [] = true ∧
    Search (⟨[], []⟩ : SearchEngine) "zz" 10 [] = some [] ∧
    (([] : List DocumentMatch).map (fun dm => dm.document.id)).Nodup :=
  ⟨by decide, rfl,
    (claimC10_results_consistent ⟨[], []⟩ "zz" 10 [] [] (by decide) rfl).2⟩

/-- Every posting of every index entry has a document id satisfying P. -/
def IndexDocsOk (P : Nat → Prop) (idx : Index) : Prop :=
  ∀ e ∈ idx, ∀ p ∈ e.2, P p.documentId

lemma indexLookup_sub {idx : Index} {w : Word} {p : DocumentIndex}
    (hp : p ∈ indexLookup idx w) : ∃ e ∈ idx, p ∈ e.2 := by
  induction idx with
  | nil => cases hp
  | cons a t ih =>
    obtain ⟨k, v⟩ := a
    simp only [indexLookup] at hp
    by_cases hkw : k = w
    · rw [if_pos hkw] at hp
      exact ⟨(k, v), by simp, hp⟩
    · rw [if_neg hkw] at hp
      obtain ⟨e, he, hpe⟩ := ih hp
      exact ⟨e, by simp [he], hpe⟩

lemma addPosting_ok {P : Nat → Prop} {l : List DocumentIndex} {d : Nat}
    {f : String} {pos : Nat} (hl : ∀ p ∈ l, P p.documentId) (hd : P d) :
    ∀ p ∈ addPosting l d f pos, P p.documentId := by
  induction l with
  | nil =>
    intro p hp
    simp only [addPosting, List.mem_singleton] at hp
    subst hp; exact hd
  | cons q t ih =>
    intro p hp
    simp only [addPosting] at hp
    split at hp
    · rcases List.mem_cons.mp hp with rfl | hmem
      · exact hl q (by simp)
      · exact hl p (by simp [hmem])
    · rcases List.mem_cons.mp hp with rfl | hmem
      · exact hl p (by simp)
      · exact ih (fun r hr => hl r (by simp [hr])) p hmem

lemma indexInsert_ok {P : Nat → Prop} {idx : Index} {w : Word} {d : Nat}
    {f : String} {pos : Nat} (hidx : IndexDocsOk P idx) (hd : P d) :
    IndexDocsOk P (indexInsert idx w d f pos) := by
  induction idx with
  | nil =>
    intro e he p hp
    simp only [indexInsert, List.mem_singleton] at he
    subst he
    exact addPosting_ok (fun r hr => absurd hr (List.not_mem_nil r)) hd p hp
  | cons a t ih =>
    obtain ⟨k, v⟩ := a
    intro e he p hp
    simp only [indexInsert] at he
    split at he
    · rcases List.mem_cons.mp he with rfl | hmem
      · exact addPosting_ok (fun r hr => hidx (k, v) (by simp) r hr) hd p hp
      · exact hidx e (by simp [hmem]) p hp
    · rcases List.mem_cons.mp he with rfl | hmem
      · exact hidx (k, v) (by simp) p hp
      · exact ih (fun e2 he2 p2 hp2 => hidx e2 (by simp [he2]) p2 hp2) e hmem p hp

lemma indexField_ok {P : Nat → Prop} {idx : Index} {d : Nat} {f text : String}
    {wt : ℝ} (hidx : IndexDocsOk P idx) (hd : P d) :
    IndexDocsOk P (indexField idx d f text wt) := by
  unfold indexField
  generalize (tokenize text).enum = L
  induction L generalizing idx with
  | nil => exact hidx
  | cons pw t ih =>
    rw [List.foldl_cons]
    apply ih
    dsimp only
    split
    · exact hidx
    · exact indexInsert_ok hidx hd

lemma findFuzzyMatches_sub {se : SearchEngine} {w : Word} {n : Nat}
    {p : DocumentIndex} (hp : p ∈ findFuzzyMatches se w n) :
    ∃ e ∈ se.index, p ∈ e.2 := by
  unfold findFuzzyMatches at hp
  suffices h : ∀ (L : Index) (acc : List DocumentIndex),
      p ∈ L.foldl
        (fun acc kv =>
          if levenshteinDistance w kv.1 ≤ n then acc ++ kv.2 else acc) acc →
      p ∈ acc ∨ ∃ e ∈ L, p ∈ e.2 by
    rcases h se.index [] hp with h1 | h1
    · cases h1
    · exact h1
  intro L
  induction L with
  | nil => intro acc hacc; exact Or.inl hacc
  | cons kv t ih =>
    intro acc hacc
    rw [List.foldl_cons] at hacc
    rcases ih _ hacc with h1 | h1
    · by_cases hc : levenshteinDistance w kv.1 ≤ n
      · rw [if_pos hc] at h1
        rcases List.mem_append.mp h1 with h2 | h2
        · exact Or.inl h2
        · exact Or.inr ⟨kv, by simp, h2⟩
      · rw [if_neg hc] at h1
        exact Or.inl h1
    · obtain ⟨e, he, hpe⟩ := h1
      exact Or.inr ⟨e, by simp [he], hpe⟩

lemma buildIndex_ok (se : SearchEngine) :
    IndexDocsOk
      (fun i => ∃ doc ∈ se.documents, doc.isActive = true ∧ doc.id = i)
      (BuildIndex se).index := by
  have main : ∀ (docs : List PolicyFile) (idx : Index),
      (∀ doc ∈ docs, doc ∈ se.documents) →
      IndexDocsOk
        (fun i => ∃ doc ∈ se.documents, doc.isActive = true ∧ doc.id = i) idx →
      IndexDocsOk
        (fun i => ∃ doc ∈ se.documents, doc.isActive = true ∧ doc.id = i)
        (docs.foldl
          (fun idx doc =>
            if doc.isActive then
              indexField
                (indexField
                  (indexField
                    (indexField (indexField idx doc.id "name" doc.name 3.0)
                      doc.id "description" doc.description 2.0)
                    doc.id "content" doc.content 1.0)
                  doc.id "category" doc.category 2.5)
                doc.id "tags" (String.intercalate " " doc.tagsArray) 2.0
            else idx)
          idx) := by
    intro docs
    induction docs with
    | nil => intro idx _ hidx; exact hidx
    | cons doc rest ih =>
      intro idx hsub hidx
      rw [List.foldl_cons]
      apply ih _ (fun d hd => hsub d (by simp [hd]))
      by_cases hact : doc.isActive
      · rw [if_pos hact]
        have hd : ∃ d0 ∈ se.documents, d0.isActive = true ∧ d0.id = doc.id :=
          ⟨doc, hsub doc (by simp), hact, rfl⟩
        exact indexField_ok (indexField_ok (indexField_ok (indexField_ok
          (indexField_ok hidx hd) hd) hd) hd) hd
      · rw [if_neg hact]
        exact hidx
  exact main se.documents [] (fun d hd => hd)
    (fun e he => absurd he (List.not_mem_nil e))

/-- C7: when the snapshot has pairwise-distinct document ids, the index
built by BuildIndex contains no posting whose document id belongs to a
document with isActive = false, and no Search result (for any realizable
docScores iteration order) carries an inactive document. -/
theorem claimC7_active_only (se : SearchEngine)
    (hids : (se.documents.map (fun doc => doc.id)).Nodup) :
    (∀ (w : Word) (p : DocumentIndex),
      p ∈ indexLookup (BuildIndex se).index w →
      ∀ doc ∈ se.documents, doc.id = p.documentId → doc.isActive = true) ∧
    (∀ (query : String) (limit : Int) (order : List Nat)
      (l : List DocumentMatch),
      isValidOrder (BuildIndex se) query order = true →
      Search (BuildIndex se) query limit order = some l →
      ∀ dm ∈ l, dm.document.isActive = true) := by
  constructor
  · intro w p hp doc hdoc hid
    obtain ⟨e, he, hpe⟩ := indexLookup_sub hp
    obtain ⟨doc0, hmem0, hact0, hid0⟩ := buildIndex_ok se e he p hpe
    have heq : doc = doc0 :=
      List.inj_on_of_nodup_map hids hdoc hmem0 (by rw [hid, hid0])
    rw [heq]; exact hact0
  · intro query limit order l hord h dm hdm
    have hmem : dm ∈ assembleResults (BuildIndex se) query order :=
      (sortByScore_perm _).mem_iff.mp ((search_some_sublist h).subset hdm)
    obtain ⟨d, hd, hdoc, -, -⟩ := mem_assembleResults hmem
    obtain ⟨-, -, hback⟩ := isValidOrder_spec hord
    have hkey := hback d hd
    rw [keys_docScores] at hkey
    obtain ⟨pr, hpr, hfst⟩ := List.mem_map.mp hkey
    obtain ⟨qw0, hqw0, hinner⟩ := List.mem_flatMap.mp hpr
    obtain ⟨m, hm, hpair⟩ := List.mem_map.mp hinner
    have hmid : m.documentId = d := by
      rw [← hfst, ← hpair]
    have hidx : ∃ e ∈ (BuildIndex se).index, m ∈ e.2 := by
      by_cases hc : (findMatches (BuildIndex se) (normalizeWord qw0)).isEmpty
      · rw [if_pos hc] at hm
        exact findFuzzyMatches_sub hm
      · rw [if_neg hc] at hm
        exact indexLookup_sub hm
    obtain ⟨e, he, hme⟩ := hidx
    obtain ⟨doc0, hmem0, hact0, hid0⟩ := buildIndex_ok se e he m hme
    have hdocmem : dm.document ∈ se.documents :=
      List.mem_of_find?_eq_some hdoc
    have hdocid : dm.document.id = d := getDocumentByID_id hdoc
    have heq : dm.document = doc0 :=
      List.inj_on_of_nodup_map hids hdocmem hmem0 (by rw [hdocid, hid0, hmid])
    rw [heq]; exact hact0

/-- Two-document corpus with one inactive document for the C7 witness. -/
def mixedEngine : SearchEngine :=
  ⟨[⟨1, "", "", "", [], "cat", true⟩, ⟨2, "", "", "", [], "cat dog", false⟩], []⟩

/-- Witness for C7: on a corpus with an active and an inactive document,
the posting for the shared term belongs to the active document, and the
theorem concludes that the matching snapshot document is active. -/
theorem claimC7_witness :
    ((mixedEngine.documents.map (fun doc => doc.id)).Nodup) ∧
    ((⟨1, "content", 1, [0]⟩ : DocumentIndex) ∈
      indexLookup (BuildIndex mixedEngine).index "cat".data) ∧
    ((⟨1, "", "", "", [], "cat", true⟩ : PolicyFile) ∈ mixedEngine.documents) ∧
    ((⟨1, "", "", "", [], "cat", true⟩ : PolicyFile).isActive = true) :=
  ⟨by decide, by decide, by decide,
    (claimC7_active_only mixedEngine (by decide)).1 "cat".data
      ⟨1, "content", 1, [0]⟩ (by decide) ⟨1, "", "", "", [], "cat", true⟩
      (by decide) (by decide)⟩

lemma scoredMatches_score_zero {se : SearchEngine} {q : String}
    (hidf : ∀ qw0 ∈ tokenize q, calculateIDF se (normalizeWord qw0) = 0) :
    ∀ p ∈ scoredMatches se q, (p : Nat × Match).2.score = 0 := by
  intro p hp
  unfold scoredMatches at hp
  obtain ⟨qw0, hqw0, hinner⟩ := List.mem_flatMap.mp hp
  obtain ⟨m, hm, hpair⟩ := List.mem_map.mp hinner
  rw [← hpair]
  dsimp only
  rw [hidf qw0 hqw0]
  ring

lemma scoreLookup_zero {se : SearchEngine} {q : String}
    (hidf : ∀ qw0 ∈ tokenize q, calculateIDF se (normalizeWord qw0) = 0)
    (d : Nat) : scoreLookup (docScores se q) d = 0 := by
  rw [scoreLookup_docScores]
  apply List.sum_eq_zero
  intro x hx
  obtain ⟨p, hp, hps⟩ := List.mem_map.mp hx
  rw [← hps]
  exact scoredMatches_score_zero hidf p (List.mem_of_mem_filter hp)

lemma sortByScore_const {l : List DocumentMatch} (h : ∀ dm ∈ l, dm.score = 0) :
    sortByScore l = l := by
  induction l with
  | nil => rfl
  | cons x xs ih =>
    simp only [sortByScore]
    rw [ih (fun dm hdm => h dm (by simp [hdm]))]
    cases xs with
    | nil => rfl
    | cons y ys =>
      simp only [insertDesc]
      rw [if_neg (by
        rw [h y (by simp), h x (by simp)]
        exact lt_irrefl 0)]

lemma search_ids_of_zero (se : SearchEngine) (q : String) (o : List Nat)
    (hq : tokenize q ≠ [])
    (hzero : ∀ d, scoreLookup (docScores se q) d = 0)
    (hassemble : (assembleResults se q o).map (fun dm => dm.document.id) = o)
    (hlen : o.length ≤ 10) :
    (Search se q 10 o).map (List.map (fun dm => dm.document.id)) = some o := by
  have hscores : ∀ dm ∈ assembleResults se q o, dm.score = 0 := by
    intro dm hdm
    obtain ⟨d, hd, hdoc, hscore, -⟩ := mem_assembleResults hdm
    rw [hscore, hzero]
  have hsort := sortByScore_const hscores
  have hlen2 : ((sortByScore (assembleResults se q o)).length : Int) ≤ 10 := by
    rw [hsort]
    have h2 : (assembleResults se q o).length = o.length := by
      have h3 := congrArg List.length hassemble
      rwa [List.length_map] at h3
    rw [h2]
    exact_mod_cast hlen
  have hsearch : Search se q 10 o = some (assembleResults se q o) := by
    simp only [Search]
    rw [if_neg hq, ite_self, if_neg (not_lt.mpr hlen2), hsort]
  rw [hsearch, Option.map_some', hassemble]

lemma scenario_idf : calculateIDF scenarioEngine "password".data = 0 := by
  unfold calculateIDF
  rw [show (indexLookup scenarioEngine.index "password".data).length = 3 from by decide]
  rw [show scenarioEngine.documents.length = 3 from by decide]
  norm_num [Real.log_one]

lemma scenario_idf_all :
    ∀ qw0 ∈ tokenize "password",
      calculateIDF scenarioEngine (normalizeWord qw0) = 0 := by
  intro qw0 hqw0
  rw [show tokenize "password" = ["password".data] from by decide] at hqw0
  simp only [List.mem_singleton] at hqw0
  subst hqw0
  rw [show normalizeWord "password".data = "password".data from by decide]
  exact scenario_idf

lemma pair_order {o : List Nat} (hnd : o.Nodup) (h1 : 1 ∈ o) (h2 : 2 ∈ o)
    (hsub : ∀ k ∈ o, k ∈ ([1, 2] : List Nat)) : o = [1, 2] ∨ o = [2, 1] := by
  rcases o with _ | ⟨a, _ | ⟨b, _ | ⟨c, t⟩⟩⟩
  · cases h1
  · simp only [List.mem_singleton] at h1 h2
    omega
  · simp only [List.mem_cons, List.not_mem_nil, or_false] at h1 h2
    have hab : a ≠ b := by
      rw [List.nodup_cons] at hnd
      exact fun h => hnd.1 (by simp [h])
    simp only [List.cons.injEq, and_true]
    omega
  · exfalso
    have ha := hsub a (by simp)
    have hb := hsub b (by simp)
    have hc := hsub c (by simp)
    simp only [List.mem_cons, List.not_mem_nil, or_false] at ha hb hc
    rw [List.nodup_cons] at hnd
    obtain ⟨ha1, hnd2⟩ := hnd
    rw [List.nodup_cons] at hnd2
    obtain ⟨hb1, -⟩ := hnd2
    have hab : a ≠ b := fun h => ha1 (by simp [h])
    have hac : a ≠ c := fun h => ha1 (by simp [h])
    have hbc : b ≠ c := fun h => hb1 (by simp [h])
    omega

lemma scenario_ids (o : List Nat) (ho : o = [1, 2] ∨ o = [2, 1]) :
    (Search scenarioEngine "password" 10 o).map
      (List.map (fun dm => dm.document.id)) = some o := by
  apply search_ids_of_zero
  · decide
  · exact scoreLookup_zero scenario_idf_all
  · rw [map_id_assembleResults]
    rcases ho with rfl | rfl <;> decide
  · rcases ho with rfl | rfl <;> decide

/-- Counterexample to C2: the docScores map iteration order [2, 1] is
realizable (idf(password) = ln(3/3) = 0 makes every score 0, and the sort
never reorders equal scores), and with it Search returns document B (id 2)
ranked first — the claim that A is always ranked first is false on the
code. -/
theorem claimC2_counterexample :
    isValidOrder scenarioEngine "password" [2, 1] = true ∧
    (Search scenarioEngine "password" 10 [2, 1]).map
      (List.map (fun dm => dm.document.id)) = some [2, 1] :=
  ⟨by decide, scenario_ids [2, 1] (Or.inr rfl)⟩

/-- C2 amended: on the scenario corpus, Search(password, 10) returns
exactly documents A and B (ids 1 and 2) — every posting scores
frequency × ln(3/3) × weight = 0, so the two results appear in the
(randomized) docScores iteration order, either [A, B] or [B, A] — and
Search(xyz123, 10) returns the empty list for every realizable order. -/
theorem claimC2_amended :
    (∀ o, isValidOrder scenarioEngine "password" o = true →
      ((o = [1, 2] ∨ o = [2, 1]) ∧
        (Search scenarioEngine "password" 10 o).map
          (List.map (fun dm => dm.document.id)) = some o)) ∧
    (∀ o, isValidOrder scenarioEngine "xyz123" o = true →
      o = [] ∧ Search scenarioEngine "xyz123" 10 o = some []) := by
  constructor
  · intro o ho
    obtain ⟨hnd, hforward, hback⟩ := isValidOrder_spec ho
    have hkeys : (docScores scenarioEngine "password").map Prod.fst = [1, 2] := by
      decide
    rw [hkeys] at hforward hback
    have h1 : 1 ∈ o := hforward 1 (by simp)
    have h2 : 2 ∈ o := hforward 2 (by simp)
    have ho2 := pair_order hnd h1 h2 hback
    exact ⟨ho2, scenario_ids o ho2⟩
  · intro o ho
    obtain ⟨-, -, hback⟩ := isValidOrder_spec ho
    have hkeys : (docScores scenarioEngine "xyz123").map Prod.fst = [] := by
      decide
    rw [hkeys] at hback
    have hnil : o = [] := by
      cases o with
      | nil => rfl
      | cons a t => exact absurd (hback a (by simp)) (List.not_mem_nil a)
    subst hnil
    exact ⟨rfl, rfl⟩

/-- Witness for C2 amended: the valid order [1, 2] yields results in that
order, and the empty order is valid for xyz123 with an empty result. -/
theorem claimC2_witness :
    isValidOrder scenarioEngine "password" [1, 2] = true ∧
    (Search scenarioEngine "password" 10 [1, 2]).map
      (List.map (fun dm => dm.document.id)) = some [1, 2] ∧
    isValidOrder scenarioEngine "xyz123" [] = true ∧
    Search scenarioEngine "xyz123" 10 [] = some [] :=
  ⟨by decide, (claimC2_amended.1 [1, 2] (by decide)).2, by decide,
    (claimC2_amended.2 [] (by decide)).2⟩

/-- Counterexample to C4: two Search calls on identical engine, query and
limit that differ only in the realizable docScores iteration order return
the two results in opposite orders (both with total score 0), so the
returned order is not deterministic and equal-score results are not always
in ascending document-id order (the [2, 1] run has them descending). -/
theorem claimC4_counterexample :
    isValidOrder scenarioEngine "password" [1, 2] = true ∧
    isValidOrder scenarioEngine "password" [2, 1] = true ∧
    (Search scenarioEngine "password" 10 [1, 2]).map
      (List.map (fun dm => dm.document.id)) = some [1, 2] ∧
    (Search scenarioEngine "password" 10 [2, 1]).map
      (List.map (fun dm => dm.document.id)) = some [2, 1] :=
  ⟨by decide, by decide, scenario_ids [1, 2] (Or.inl rfl),
    scenario_ids [2, 1] (Or.inr rfl)⟩

/-- Corpus for C3: two documents whose contents are the terms cat and car,
both at distance 1 from the misspelled query caf. -/
def fuzzyEngine : SearchEngine :=
  BuildIndex ⟨[⟨1, "", "", "", [], "cat", true⟩, ⟨2, "", "", "", [], "car", true⟩], []⟩

lemma fuzzy_idf_all :
    ∀ qw0 ∈ tokenize "caf",
      calculateIDF fuzzyEngine (normalizeWord qw0) = 0 := by
  intro qw0 hqw0
  rw [show tokenize "caf" = ["caf".data] from by decide] at hqw0
  simp only [List.mem_singleton] at hqw0
  subst hqw0
  rw [show normalizeWord "caf".data = "caf".data from by decide]
  unfold calculateIDF
  rw [show (indexLookup fuzzyEngine.index "caf".data).length = 0 from by decide]
  simp

/-- Counterexample to C3: caf is at edit distance 1 from the indexed term
cat and has no exact postings, yet Search(caf) returns documents 1 and 2
(car is also within distance 2 and contributes its postings) while the
correctly spelled Search(cat) returns only document 1 — the document sets
differ. -/
theorem claimC3_counterexample :
    levenshteinDistance "caf".data "cat".data = 1 ∧
    indexLookup fuzzyEngine.index "caf".data = [] ∧
    isValidOrder fuzzyEngine "cat" [1] = true ∧
    isValidOrder fuzzyEngine "caf" [1, 2] = true ∧
    (Search fuzzyEngine "cat" 10 [1]).map
      (List.map (fun dm => dm.document.id)) = some [1] ∧
    (Search fuzzyEngine "caf" 10 [1, 2]).map
      (List.map (fun dm => dm.document.id)) = some [1, 2] := by
  refine ⟨by decide, by decide, by decide, by decide, by rfl, ?_⟩
  apply search_ids_of_zero
  · decide
  · exact scoreLookup_zero fuzzy_idf_all
  · rw [map_id_assembleResults]
    decide
  · decide

lemma fuzzyFold_mono {qw : Word} {n : Nat} {p : DocumentIndex} :
    ∀ (L : Index) (acc : List DocumentIndex), p ∈ acc →
      p ∈ L.foldl
        (fun acc kv =>
          if levenshteinDistance qw kv.1 ≤ n then acc ++ kv.2 else acc) acc := by
  intro L
  induction L with
  | nil => intro acc h; exact h
  | cons kv rest ih =>
    intro acc h
    rw [List.foldl_cons]
    apply ih
    dsimp only
    split
    · exact List.mem_append.mpr (Or.inl h)
    · exact h

/-- C3 amended: when a query term has no exact postings, every index
vocabulary term within Levenshtein distance 2 contributes its full posting
list to the fuzzy candidate set, and each candidate is scored as
frequency × idf(queryTerm) × fieldWeight where idf(queryTerm) = 0 (the
query term itself has no postings) — so the misspelled term yields a
superset of the documents of the correctly spelled term, with equality
only when no other vocabulary term lies within distance 2. -/
theorem claimC3_amended (se : SearchEngine) (qw t : Word)
    (ps : List DocumentIndex) (hq : indexLookup se.index qw = [])
    (hmem : (t, ps) ∈ se.index) (hd : levenshteinDistance qw t ≤ 2) :
    (∀ p ∈ ps, p ∈ findFuzzyMatches se qw 2) ∧ calculateIDF se qw = 0 := by
  constructor
  · intro p hp
    unfold findFuzzyMatches
    have main : ∀ (L : Index) (acc : List DocumentIndex), (t, ps) ∈ L →
        p ∈ L.foldl
          (fun acc kv =>
            if levenshteinDistance qw kv.1 ≤ 2 then acc ++ kv.2 else acc) acc := by
      intro L
      induction L with
      | nil => intro acc h; cases h
      | cons kv rest ih =>
        intro acc hmem2
        rw [List.foldl_cons]
        rcases List.mem_cons.mp hmem2 with heq | hmem3
        · subst heq
          apply fuzzyFold_mono
          dsimp only
          rw [if_pos hd]
          exact List.mem_append.mpr (Or.inr hp)
        · exact ih _ hmem3
    exact main se.index [] hmem
  · unfold calculateIDF
    rw [hq]
    simp

/-- Witness for C3 amended at the cat/car corpus and the misspelled query
caf. -/
theorem claimC3_witness :
    indexLookup fuzzyEngine.index "caf".data = [] ∧
    (("cat".data, [(⟨1, "content", 1, [0]⟩ : DocumentIndex)]) ∈ fuzzyEngine.index) ∧
    levenshteinDistance "caf".data "cat".data ≤ 2 ∧
    ((⟨1, "content", 1, [0]⟩ : DocumentIndex) ∈ findFuzzyMatches fuzzyEngine "caf".data 2) ∧
    calculateIDF fuzzyEngine "caf".data = 0 :=
  ⟨by decide, by decide, by decide,
    (claimC3_amended fuzzyEngine "caf".data "cat".data
      [⟨1, "content", 1, [0]⟩] (by decide) (by decide) (by decide)).1
      ⟨1, "content", 1, [0]⟩ (by decide),
    (claimC3_amended fuzzyEngine "caf".data "cat".data
      [⟨1, "content", 1, [0]⟩] (by decide) (by decide) (by decide)).2⟩

end ChatappSearch
